import Mathlib

/-!
Verification of the directory-traversal-and-filtering engine of
`source-to-llm` (`src/index.js`).

The engine consists of:
* a fixed always-ignore list (`ALWAYS_IGNORE`) plus gitignore-style rules
  loaded by `loadGitignore` and extended with user patterns (`ig.add`);
* `traverseDirectory(currentDir, rootDir, ig, prefix, output, only,
  includeContentsHeader)`, which lists a directory, filters the entries
  through the `only` whitelist and the ignore ruleset, renders ASCII-tree
  lines into `output.structure` and concatenates readable file text into
  `output.contents`, recursing into surviving subdirectories.

Shallow embedding conventions:
* The filesystem is a value of type `FSEntry`: a directory carries the
  result of `fs.readdir` (listing or error message), a file carries the
  result of `fs.readFile` (text or error message).  `other` covers entries
  that are neither file nor directory.
* Directories are addressed by their path relative to the traversal root
  (`path.relative(rootDir, currentDir)`); the root itself is addressed by
  its base name.  Console output is modelled in the accumulator: `warnings`
  collects `console.warn` messages, `logs` collects `console.log` messages
  emitted inside the walk.
* The gitignore matcher is provided by the external `ignore` npm package,
  whose code is not part of this repository; it is modelled from the spec
  (see `ruleMatch`, `ignores`).  The whitelist matcher, by contrast, is a
  literal embedding of the regular expression built inline in
  `traverseDirectory` (see `globTokens`, `gtMatch`).
-/

/-! String helpers: kernel-computable replacements for the JS string operations. -/

/-- Characters of a list split on a separator character, mirroring
`String.splitOn` for a one-character separator:
`splitOnChar '/' "a/b".data = [['a'],['b']]`, `splitOnChar sep [] = [[]]`. -/
def splitOnChar (sep : Char) : List Char → List (List Char)
  | [] => [[]]
  | c :: cs =>
    let r := splitOnChar sep cs
    if c == sep then [] :: r
    else
      match r with
      | [] => [[c]]
      | s :: rest => (c :: s) :: rest

/-- Split on `'/'` (path-segment decomposition). -/
def splitSlash : List Char → List (List Char) := splitOnChar '/'

/-- Does the character list end with `'/'`? (JS `path.endsWith("/")`). -/
def endsWithSlash : List Char → Bool
  | [] => false
  | [c] => c == '/'
  | _ :: cs => endsWithSlash cs

/-- Is the first character list a prefix of the second? -/
def listIsPrefixOf : List Char → List Char → Bool
  | [], _ => true
  | _ :: _, [] => false
  | p :: ps, c :: cs => p == c && listIsPrefixOf ps cs

/-- JS `s.includes(sub)` : does `sub` occur as a contiguous substring of `s`? -/
def strIncludes (s sub : String) : Bool :=
  (s.data.tails).any (fun t => listIsPrefixOf sub.data t)

/-- All strict suffixes of a list (the list with 1, 2, … leading elements
removed), used for `(.+)`-style wildcards that must consume at least one
character. -/
def properTails : List Char → List (List Char)
  | [] => []
  | _ :: cs => cs :: properTails cs

/-- Suffixes of a list obtained by removing at least one leading
non-`'/'` character, used for the `([^/]+)` wildcard. -/
def dropsNonSlash : List Char → List (List Char)
  | [] => []
  | c :: cs => if c == '/' then [] else cs :: dropsNonSlash cs

/-! Whitelist matcher.

For each `only` pattern, `traverseDirectory` builds the JS regular
expression

  new RegExp(`^${pattern.replace(/\x2a\x2a/g, "(.+)").replace(/\x2a/g, "([^/]+)")}$`)

i.e. the raw pattern text with every `**` replaced by `(.+)` and every
remaining `*` by `([^/]+)`, anchored at both ends, with **no escaping of
other regex metacharacters**.  We embed the resulting regex as a token
list: `**` becomes a one-or-more-any-characters wildcard, `*` a
one-or-more-non-slash wildcard, and `.` (being unescaped) a
single-any-character wildcard; all other pattern characters used by this
development are regex-literal. -/

inductive GTok where
  | lit (c : Char)
  | anyChar
  | anyPlus
  | segPlus
deriving DecidableEq

/-- Tokenise a whitelist glob pattern exactly as the two `replace` calls
do: leftmost-first, `**` before `*`. -/
def globTokens : List Char → List GTok
  | [] => []
  | '*' :: '*' :: cs => .anyPlus :: globTokens cs
  | '*' :: cs => .segPlus :: globTokens cs
  | '.' :: cs => .anyChar :: globTokens cs
  | c :: cs => .lit c :: globTokens cs

/-- Anchored match of the tokenised whitelist regex against a path
(`regex.test(checkPath)` with the `^...$` anchors). -/
def gtMatch : List GTok → List Char → Bool
  | [], ds => ds.isEmpty
  | .lit c :: ts, ds =>
    match ds with
    | [] => false
    | d :: ds' => c == d && gtMatch ts ds'
  | .anyChar :: ts, ds =>
    match ds with
    | [] => false
    | _ :: ds' => gtMatch ts ds'
  | .anyPlus :: ts, ds =>
    match ds with
    | [] => false
    | _ :: ds' => (ds' :: properTails ds').any (fun suf => gtMatch ts suf)
  | .segPlus :: ts, ds =>
    match ds with
    | [] => false
    | d :: ds' => !(d == '/') && ((ds' :: dropsNonSlash ds').any (fun suf => gtMatch ts suf))

/-! Ignore ruleset.

Modelled from the spec: the gitignore matching itself is performed by the
external `ignore` npm package, which is not part of this repository's
source.  The spec states the semantics: "Matching semantics follow
standard VCS-ignore glob conventions (`*` within a segment, `**` across
segments, leading `/` anchors to root, trailing `/` restricts to
directories, `!` negates a prior rule)", with directories tested with a
trailing separator, and a rule matching a directory also covering
everything beneath it. -/

/-- One gitignore-style rule: a glob pattern, possibly negated by a
leading `!`. -/
structure IgnoreRule where
  negated : Bool
  pattern : String
deriving DecidableEq

/-- Modelled from the spec: glob match of one pattern segment (gitignore
dialect: `*` matches zero or more non-separator characters, every other
character — including `.` — is literal). -/
def globSeg : List Char → List Char → Bool
  | [], ds => ds.isEmpty
  | '*' :: ps, ds => (ds :: properTails ds).any (fun suf => globSeg ps suf)
  | p :: ps, ds =>
    match ds with
    | [] => false
    | d :: ds' => p == d && globSeg ps ds'

/-- Modelled from the spec: match a list of pattern segments against a
list of path segments.  A `**` segment matches any number of path
segments; exhausting the pattern while path segments remain means the
path lies beneath a matched directory (and is therefore covered); when
the pattern consumes the path exactly, a directory-only rule (trailing
`/`) additionally requires the path to denote a directory. -/
def igMatch (dirOnly isDir : Bool) : List (List Char) → List (List Char) → Bool
  | [], [] => !dirOnly || isDir
  | [], _ :: _ => true
  | p :: ps, segs =>
    if p = ['*', '*'] then
      (segs.tails).any (fun suf => igMatch dirOnly isDir ps suf)
    else
      match segs with
      | [] => false
      | s :: segs' => globSeg p s && igMatch dirOnly isDir ps segs'

/-- Modelled from the spec: does one gitignore rule pattern match the
given check path (directories carry a trailing `/`)?  A pattern with no
`/` of its own matches at any depth (it behaves like `**/pattern`); a
pattern containing `/` is anchored to the root. -/
def ruleMatch (pat path : String) : Bool :=
  let pcs := path.data
  let isDir := endsWithSlash pcs
  let pathChars := if isDir then pcs.dropLast else pcs
  let patcs := pat.data
  let dirOnly := endsWithSlash patcs
  let pat0 := if dirOnly then patcs.dropLast else patcs
  let anchored := pat0.contains '/'
  let pat1 := if pat0.head? = some '/' then pat0.tail else pat0
  let patSegs := splitSlash pat1
  let pathSegs := splitSlash pathChars
  igMatch dirOnly isDir (if anchored then patSegs else ['*', '*'] :: patSegs) pathSegs

/-- Modelled from the spec: `ig.ignores(path)` — rules are consulted in
the order they were added, the last matching rule decides, and a matching
negated (`!`) rule un-ignores the path. -/
def ignores (rules : List IgnoreRule) (path : String) : Bool :=
  rules.foldl (fun acc r => if ruleMatch r.pattern path then !r.negated else acc) false

/-- Modelled from the spec: one line of a gitignore file (or one entry of
the `config.ignores` array) becomes one rule; a leading `!` marks
negation. -/
def parseIgnorePattern (line : List Char) : IgnoreRule :=
  match line with
  | '!' :: rest => { negated := true, pattern := String.mk rest }
  | _ => { negated := false, pattern := String.mk line }

/-- Modelled from the spec: the line-based rules of a gitignore file, in
order; blank lines and `#` comment lines carry no rule. -/
def parseIgnoreLines (content : String) : List IgnoreRule :=
  (((splitOnChar '\n' content.data).filter
      (fun l => !l.isEmpty && !(listIsPrefixOf ['#'] l))).map parseIgnorePattern)

/-- Source: `const DEFAULT_STRUCTURE_FILENAME = "structure.txt"`. -/
def DEFAULT_STRUCTURE_FILENAME : String := "structure.txt"

/-- Source: `const DEFAULT_CONTENTS_FILENAME = "contents.txt"`. -/
def DEFAULT_CONTENTS_FILENAME : String := "contents.txt"

/-- Source: `const ALWAYS_IGNORE = [".git", "node_modules", DEFAULT_STRUCTURE_FILENAME, DEFAULT_CONTENTS_FILENAME]`. -/
def ALWAYS_IGNORE : List String :=
  [".git", "node_modules", DEFAULT_STRUCTURE_FILENAME, DEFAULT_CONTENTS_FILENAME]

/-- Embeds `loadGitignore(targetDir, useGitignore)` : it seeds the ruleset with
`ALWAYS_IGNORE`, then, when `useGitignore` is set, merges the rules of the
`.gitignore` file at the root.  `gitignoreContent = none` models the
ENOENT case (no such file): the built-in set is used alone.  (The failure
branch for unreadable-but-present files only logs a warning and likewise
keeps the built-in set.) -/
def loadGitignore (useGitignore : Bool) (gitignoreContent : Option String) : List IgnoreRule :=
  let ig := ALWAYS_IGNORE.map (fun p => { negated := false, pattern := p })
  if useGitignore then
    match gitignoreContent with
    | some content => ig ++ parseIgnoreLines content
    | none => ig
  else ig

/-- Embeds `ig.add(config.ignores)` : the extra ignore patterns from the
configuration are appended after the built-in and gitignore rules. -/
def addPatterns (rules : List IgnoreRule) (pats : List String) : List IgnoreRule :=
  rules ++ pats.map (fun p => parseIgnorePattern p.data)

/-! Filesystem model and traversal accumulator. -/

/-- One filesystem entry as seen through `fs.readdir(..., { withFileTypes:
true })` plus the outcome of the I/O the walker would perform on it: a
directory carries its `fs.readdir` result (entry list, or error message),
a file carries its `fs.readFile(..., "utf-8")` result (text, or error
message), and `other` stands for entries that are neither file nor
directory (symlinks, sockets, …). -/
inductive FSEntry where
  | dir (name : String) (listing : Except String (List FSEntry))
  | file (name : String) (readResult : Except String String)
  | other (name : String)

/-- Embeds `entry.name`. -/
def FSEntry.name : FSEntry → String
  | .dir n _ => n
  | .file n _ => n
  | .other n => n

/-- Embeds `entry.isDirectory()`. -/
def FSEntry.isDirectory : FSEntry → Bool
  | .dir _ _ => true
  | _ => false

/-- Embeds `entry.isFile()`. -/
def FSEntry.isFile : FSEntry → Bool
  | .file _ _ => true
  | _ => false

/-- The traversal accumulator: the two text buffers of the source's
`output` object, plus the console messages the walker emits
(`console.warn` into `warnings`, `console.log` into `logs`). -/
structure Output where
  structureText : String
  contents : String
  warnings : List String
  logs : List String
deriving DecidableEq

/-- Embeds `path.relative(rootDir, path.join(currentDir, name))` for an entry
called `name` of the directory whose root-relative path is `relDir`. -/
def joinRel (relDir name : String) : String :=
  if relDir = "" then name else relDir ++ "/" ++ name

/-- The `console.warn` text for an unreadable directory. -/
def warnDirMsg (dirPath msg : String) : String :=
  "Warning: Could not read directory " ++ dirPath ++ ": " ++ msg

/-- The `console.warn` text for an unreadable (non-binary) file. -/
def warnFileMsg (relativePath msg : String) : String :=
  "Warning: Could not read file " ++ relativePath ++ ": " ++ msg

/-- The `console.log` text for a skipped binary file. -/
def binaryLogMsg (relativePath : String) : String :=
  "Skipping likely binary file: " ++ relativePath

/-- The per-file header block appended to the contents buffer when
`includeContentsHeader` is set. -/
def fileHeader (relativePath : String) : String :=
  "\n/* --- File: " ++ relativePath ++ " --- */\n\n"

/-- The filter predicate applied to every directory entry before
processing (`entries.filter(...)` in `traverseDirectory`): directories
are checked with a trailing `/` appended to their relative path
(`checkPath`); when `only` is non-empty the check path must match at
least one whitelist pattern's regex, and in any case the ignore ruleset
must not match the check path. -/
def validEntry (ig : List IgnoreRule) (only : List String) (relDir : String)
    (entry : FSEntry) : Bool :=
  let relativePath := joinRel relDir entry.name
  let checkPath := if entry.isDirectory then relativePath ++ "/" else relativePath
  (if only.length > 0 then
    only.any (fun pattern => gtMatch (globTokens pattern.data) checkPath.data)
  else true)
  && !(ignores ig checkPath)

/-- A sizeOf bound used for termination: filtering never grows a list. -/
theorem sizeOf_filter_le {α : Type} [SizeOf α] (p : α → Bool) (l : List α) :
    sizeOf (l.filter p) ≤ sizeOf l := by
  induction l with
  | nil => simp [List.filter]
  | cons a l ih =>
    rw [List.filter_cons]
    split
    · simp only [List.cons.sizeOf_spec]
      omega
    · simp only [List.cons.sizeOf_spec]
      omega

/-- Descending into a (successfully listed) subdirectory strictly
decreases the tree measure, even after filtering its children. -/
theorem filter_lt_dir_cons (p : FSEntry → Bool) (n : String) (l rest : List FSEntry) :
    sizeOf (l.filter p) < sizeOf (FSEntry.dir n (Except.ok l) :: rest) := by
  have h := sizeOf_filter_le p l
  simp only [List.cons.sizeOf_spec, FSEntry.dir.sizeOf_spec, Except.ok.sizeOf_spec]
  omega

/-- The body of the `for` loop of `traverseDirectory`, iterated over the
already-filtered entry list (`validEntries`).  `isLast` is
`i === validEntries.length - 1`, i.e. whether the remaining suffix after
the current entry is empty.  For each entry, in order: the structure line
`prefix + connector + name` is appended; a directory entry recurses with
the extended prefix (the recursive `traverseDirectory` call is inlined:
its `fs.readdir` result is the `listing` stored in the tree, and its
entry filter is applied to the listed children); a file entry is read and
its text appended to the contents buffer (with the optional per-file
header) or, on failure, a binary-looking error is logged and any other
error recorded as a warning; `other` entries get no further handling. -/
def walkValid (ig : List IgnoreRule) (only : List String) (includeContentsHeader : Bool) :
    String → String → List FSEntry → Output → Output
  | _, _, [], output => output
  | relDir, pfx, entry :: rest, output =>
    let isLast : Bool := rest.isEmpty
    let connector := cond isLast "└── " "├── "
    let newPfx := pfx ++ (cond isLast "    " "│   ")
    let output1 :=
      { output with structureText := output.structureText ++ pfx ++ connector ++ entry.name ++ "\n" }
    let output2 :=
      match entry with
      | .dir name listing =>
        let childRel := joinRel relDir name
        match listing with
        | .error msg =>
          { output1 with warnings := output1.warnings ++ [warnDirMsg childRel msg] }
        | .ok entries =>
          walkValid ig only includeContentsHeader childRel newPfx
            (entries.filter (validEntry ig only childRel)) output1
      | .file name readResult =>
        let relativePath := joinRel relDir name
        match readResult with
        | .ok content =>
          let outputH :=
            cond includeContentsHeader
              { output1 with contents := output1.contents ++ fileHeader relativePath }
              output1
          let outputC := { outputH with contents := outputH.contents ++ content }
          { outputC with contents := outputC.contents ++ "\n" }
        | .error msg =>
          cond (strIncludes msg "invalid" || strIncludes msg "buffer")
            { output1 with logs := output1.logs ++ [binaryLogMsg relativePath] }
            { output1 with warnings := output1.warnings ++ [warnFileMsg relativePath msg] }
      | .other _ => output1
    walkValid ig only includeContentsHeader relDir pfx rest output2
termination_by relDir pfx l output => sizeOf l
decreasing_by
  · exact filter_lt_dir_cons _ _ _ _
  · simp only [List.cons.sizeOf_spec]
    omega

/-- The handling of one surviving entry inside the loop of
`traverseDirectory` (the loop body of `walkValid`, factored out so that
single steps of the walk can be named in theorem statements): the
structure line, then the per-kind processing.  `walkValid` on a non-empty
list is one `walkOne` step followed by `walkValid` on the remainder
(`walkValid_cons` below). -/
def walkOne (ig : List IgnoreRule) (only : List String) (includeContentsHeader : Bool)
    (relDir pfx : String) (isLast : Bool) (entry : FSEntry) (output : Output) : Output :=
  let connector := cond isLast "└── " "├── "
  let newPfx := pfx ++ (cond isLast "    " "│   ")
  let output1 :=
    { output with structureText := output.structureText ++ pfx ++ connector ++ entry.name ++ "\n" }
  match entry with
  | .dir name listing =>
    let childRel := joinRel relDir name
    match listing with
    | .error msg =>
      { output1 with warnings := output1.warnings ++ [warnDirMsg childRel msg] }
    | .ok entries =>
      walkValid ig only includeContentsHeader childRel newPfx
        (entries.filter (validEntry ig only childRel)) output1
  | .file name readResult =>
    let relativePath := joinRel relDir name
    match readResult with
    | .ok content =>
      let outputH :=
        cond includeContentsHeader
          { output1 with contents := output1.contents ++ fileHeader relativePath }
          output1
      let outputC := { outputH with contents := outputH.contents ++ content }
      { outputC with contents := outputC.contents ++ "\n" }
    | .error msg =>
      cond (strIncludes msg "invalid" || strIncludes msg "buffer")
        { output1 with logs := output1.logs ++ [binaryLogMsg relativePath] }
        { output1 with warnings := output1.warnings ++ [warnFileMsg relativePath msg] }
  | .other _ => output1

/-- Accumulator `b` extends accumulator `a` by pure appends: every buffer
of `b` is the corresponding buffer of `a` with some suffix appended. -/
def Appends (a b : Output) : Prop :=
  ∃ t u w g, b = { structureText := a.structureText ++ t, contents := a.contents ++ u,
                   warnings := a.warnings ++ w, logs := a.logs ++ g }

/-- Embeds `traverseDirectory(currentDir, rootDir, ig, prefix, output, only,
includeContentsHeader)` for the directory whose root-relative path is
`relDir` and whose `fs.readdir` outcome is `listing`: a failed listing
records a warning and returns the accumulator untouched otherwise; a
successful listing filters the entries through `validEntry` and runs the
processing loop over the survivors. -/
def traverseDirectory (relDir : String) (ig : List IgnoreRule) (pfx : String)
    (output : Output) (only : List String) (includeContentsHeader : Bool)
    (listing : Except String (List FSEntry)) : Output :=
  match listing with
  | .error msg => { output with warnings := output.warnings ++ [warnDirMsg relDir msg] }
  | .ok entries =>
    walkValid ig only includeContentsHeader relDir pfx
      (entries.filter (validEntry ig only relDir)) output

/-- Steps 6–8 of `main`: the initial accumulator (structure buffer seeded
with the root directory's base name, contents buffer optionally seeded
with the whole-document header; the root is addressed here by its base
name `rootName`). -/
def initialOutput (rootName : String) (includeContentsHeader : Bool) : Output :=
  { structureText := rootName ++ "\n"
    contents :=
      if includeContentsHeader then
        "/* --- Contents from directory: " ++ rootName ++ " --- */\n"
      else ""
    warnings := []
    logs := [] }

/-- Steps 6–8 of `main`: build the ignore ruleset (`loadGitignore` plus
`ig.add(config.ignores)`), seed the output, and run `traverseDirectory`
from the root with empty relative path and empty prefix. -/
def runTraversal (rootName : String) (useGitignore : Bool)
    (gitignoreContent : Option String) (extraIgnores : List String)
    (only : List String) (includeContentsHeader : Bool)
    (rootListing : Except String (List FSEntry)) : Output :=
  let ig := addPatterns (loadGitignore useGitignore gitignoreContent) extraIgnores
  traverseDirectory "" ig "" (initialOutput rootName includeContentsHeader)
    only includeContentsHeader rootListing

/-! Support lemmas about the walk. -/

/-- Unfolding: the walk over an empty (filtered) listing returns the
accumulator unchanged. -/
theorem walkValid_nil (ig : List IgnoreRule) (only : List String) (hdr : Bool)
    (relDir pfx : String) (out : Output) :
    walkValid ig only hdr relDir pfx [] out = out := by
  simp only [walkValid]

/-- Unfolding: the walk over a non-empty (filtered) listing processes the
head entry (`walkOne`, with `isLast` exactly when no further survivors
follow) and continues with the tail. -/
theorem walkValid_cons (ig : List IgnoreRule) (only : List String) (hdr : Bool)
    (relDir pfx : String) (e : FSEntry) (rest : List FSEntry) (out : Output) :
    walkValid ig only hdr relDir pfx (e :: rest) out =
      walkValid ig only hdr relDir pfx rest
        (walkOne ig only hdr relDir pfx rest.isEmpty e out) := by
  conv_lhs => rw [walkValid.eq_def]
  rfl

theorem appends_refl (a : Output) : Appends a a := by
  refine ⟨"", "", [], [], ?_⟩
  cases a
  simp

theorem appends_trans {a b c : Output} (h1 : Appends a b) (h2 : Appends b c) : Appends a c := by
  obtain ⟨t, u, w, g, rfl⟩ := h1
  obtain ⟨t', u', w', g', rfl⟩ := h2
  exact ⟨t ++ t', u ++ u', w ++ w', g ++ g', by simp [String.append_assoc]⟩

theorem fsentry_sizeOf_pos (e : FSEntry) : 0 < sizeOf e := by
  cases e <;> simp_arith

/-- One `walkOne` step only appends to the buffers, assuming the same of
the recursive calls it makes (the hypothesis `H` is discharged by the
strong induction in `walkValid_appends`). -/
theorem walkOne_appends_of (ig : List IgnoreRule) (only : List String) (hdr : Bool)
    (relDir pfx : String) (isLast : Bool) (e : FSEntry) (out : Output)
    (H : ∀ relDir' pfx' (l' : List FSEntry) out', sizeOf l' < sizeOf e →
      Appends out' (walkValid ig only hdr relDir' pfx' l' out')) :
    Appends out (walkOne ig only hdr relDir pfx isLast e out) := by
  have hline : Appends out { out with structureText :=
      out.structureText ++ pfx ++ (cond isLast "└── " "├── ") ++ e.name ++ "\n" } := by
    refine ⟨pfx ++ (cond isLast "└── " "├── ") ++ e.name ++ "\n", "", [], [], ?_⟩
    cases out
    simp [String.append_assoc]
  cases e with
  | dir name listing =>
    cases listing with
    | error msg =>
      refine appends_trans hline ?_
      exact ⟨"", "", [warnDirMsg (joinRel relDir name) msg], [], by simp [walkOne]⟩
    | ok children =>
      have hsz : sizeOf (children.filter (validEntry ig only (joinRel relDir name))) <
          sizeOf (FSEntry.dir name (Except.ok children)) := by
        have := sizeOf_filter_le (validEntry ig only (joinRel relDir name)) children
        simp only [FSEntry.dir.sizeOf_spec, Except.ok.sizeOf_spec]
        omega
      exact appends_trans hline (by simpa [walkOne] using H (joinRel relDir name) _ _ _ hsz)
  | file name readResult =>
    cases readResult with
    | ok content =>
      refine appends_trans hline ?_
      cases hdr with
      | false =>
        refine ⟨"", content ++ "\n", [], [], ?_⟩
        simp [walkOne, String.append_assoc]
      | true =>
        refine ⟨"", fileHeader (joinRel relDir name) ++ content ++ "\n", [], [], ?_⟩
        simp [walkOne, String.append_assoc]
    | error msg =>
      refine appends_trans hline ?_
      cases hb : strIncludes msg "invalid" || strIncludes msg "buffer" with
      | true => exact ⟨"", "", [], [binaryLogMsg (joinRel relDir name)], by simp [walkOne, hb]⟩
      | false => exact ⟨"", "", [warnFileMsg (joinRel relDir name) msg], [], by simp [walkOne, hb]⟩
  | other name =>
    exact appends_trans hline ⟨"", "", [], [], by simp [walkOne]⟩

/-- Central append-only property: the walk only ever appends to the four
buffers of the accumulator. -/
theorem walkValid_appends (ig : List IgnoreRule) (only : List String) (hdr : Bool)
    (relDir pfx : String) (l : List FSEntry) (out : Output) :
    Appends out (walkValid ig only hdr relDir pfx l out) := by
  suffices h : ∀ (n : Nat) (l : List FSEntry), sizeOf l ≤ n →
      ∀ relDir pfx out, Appends out (walkValid ig only hdr relDir pfx l out) from
    h (sizeOf l) l (le_refl _) relDir pfx out
  intro n
  induction n with
  | zero =>
    intro l hl
    exfalso
    cases l <;> simp_arith at hl
  | succ n ih =>
    intro l hl relDir pfx out
    cases l with
    | nil =>
      rw [walkValid_nil]
      exact appends_refl out
    | cons e rest =>
      rw [walkValid_cons]
      have he := fsentry_sizeOf_pos e
      have hrest : sizeOf rest ≤ n := by
        simp only [List.cons.sizeOf_spec] at hl
        omega
      refine appends_trans ?_ (ih rest hrest relDir pfx _)
      apply walkOne_appends_of
      intro relDir' pfx' l' out' hlt
      have hrestpos : 0 < sizeOf rest := by cases rest <;> simp_arith
      refine ih l' ?_ relDir' pfx' out'
      simp only [List.cons.sizeOf_spec] at hl
      omega

/-- The structure line of an entry comes first in everything the step (and
the rest of the walk) appends to the structure buffer. -/
theorem walkOne_structure_line (ig : List IgnoreRule) (only : List String) (hdr : Bool)
    (relDir pfx : String) (isLast : Bool) (e : FSEntry) (out : Output) :
    ∃ t, (walkOne ig only hdr relDir pfx isLast e out).structureText =
      out.structureText ++ (pfx ++ (cond isLast "└── " "├── ") ++ e.name ++ "\n") ++ t := by
  cases e with
  | dir name listing =>
    cases listing with
    | error msg => exact ⟨"", by simp [walkOne, String.append_assoc]⟩
    | ok children =>
      obtain ⟨t, u, w, g, h⟩ := walkValid_appends ig only hdr (joinRel relDir name)
        (pfx ++ (cond isLast "    " "│   "))
        (children.filter (validEntry ig only (joinRel relDir name)))
        { out with structureText :=
            out.structureText ++ pfx ++ (cond isLast "└── " "├── ") ++ name ++ "\n" }
      refine ⟨t, ?_⟩
      simp only [walkOne, FSEntry.name]
      rw [h]
      simp [String.append_assoc]
  | file name readResult =>
    cases readResult with
    | ok content =>
      cases hdr with
      | false => exact ⟨"", by simp [walkOne, String.append_assoc]⟩
      | true => exact ⟨"", by simp [walkOne, String.append_assoc]⟩
    | error msg =>
      cases hb : strIncludes msg "invalid" || strIncludes msg "buffer" with
      | true => exact ⟨"", by simp [walkOne, hb, String.append_assoc]⟩
      | false => exact ⟨"", by simp [walkOne, hb, String.append_assoc]⟩
  | other name => exact ⟨"", by simp [walkOne, String.append_assoc]⟩

/-! Claim theorems. -/

/-- C5: for a root `root` containing `a.txt` ("hello"), a directory `b`
containing `c.txt` ("world"), and a `.git` directory, under the default
configuration (gitignore enabled but absent, no extra ignores, no
whitelist, contents header enabled), the walk produces exactly the
structure text `root\n├── a.txt\n└── b\n    └── c.txt\n` and a contents
text consisting of the whole-document header, then the per-file header
block for `a.txt` plus `hello\n`, then the per-file header block for
`b/c.txt` plus `world\n`. -/
theorem c5_default_scenario :
    runTraversal "root" true none [] [] true
      (.ok [FSEntry.file "a.txt" (.ok "hello"),
            FSEntry.dir "b" (.ok [FSEntry.file "c.txt" (.ok "world")]),
            FSEntry.dir ".git" (.ok [])]) =
    { structureText := "root\n├── a.txt\n└── b\n    └── c.txt\n"
      contents := "/* --- Contents from directory: root --- */\n\n/* --- File: a.txt --- */\n\nhello\n\n/* --- File: b/c.txt --- */\n\nworld\n"
      warnings := []
      logs := [] } := by
  simp +decide [runTraversal, traverseDirectory, initialOutput, walkValid, joinRel, fileHeader,
    FSEntry.name, List.filter_cons, List.filter_nil]

/-- C1 (evaluation at the failing input): with whitelist
`onlyPatterns = ["src/**"]` over a tree containing `src/a.txt`,
`src/nested/b.txt` and `lib/c.txt`, the walk emits nothing at all —
the directory entry `src` itself is tested as `src/` against the regex
`^src/(.+)$`, which requires at least one character after `src/`, so
`src` is filtered out and never recursed into, even though the relative
paths `src/a.txt` and `src/nested/b.txt` do match the pattern.  The claim
says both files are admitted; the code admits neither. -/
theorem c1_only_src_glob_excludes_everything :
    runTraversal "root" true none [] ["src/**"] true
      (.ok [FSEntry.dir "src" (.ok [FSEntry.file "a.txt" (.ok "A"),
                                    FSEntry.dir "nested" (.ok [FSEntry.file "b.txt" (.ok "B")])]),
            FSEntry.dir "lib" (.ok [FSEntry.file "c.txt" (.ok "C")])]) =
    { structureText := "root\n"
      contents := "/* --- Contents from directory: root --- */\n"
      warnings := []
      logs := [] } ∧
    gtMatch (globTokens "src/**".data) "src/a.txt".data = true ∧
    gtMatch (globTokens "src/**".data) "src/nested/b.txt".data = true ∧
    gtMatch (globTokens "src/**".data) "src/".data = false := by
  refine ⟨?_, by decide, by decide, by decide⟩
  simp +decide [runTraversal, traverseDirectory, initialOutput, walkValid, joinRel, fileHeader,
    FSEntry.name, List.filter_cons, List.filter_nil]

/-- C10: the whitelist regex is built by replacing only `**` and `*` in
the raw pattern, without escaping other metacharacters, so the `.` in the
pattern `a.txt` is an any-character wildcard: the differently named entry
`aXtxt` passes the whitelist and is rendered into the structure text. -/
theorem c10_unescaped_dot_matches :
    gtMatch (globTokens "a.txt".data) "aXtxt".data = true ∧
    validEntry (loadGitignore true none) ["a.txt"] "" (.file "aXtxt" (.ok "x")) = true ∧
    (runTraversal "root" true none [] ["a.txt"] true
      (.ok [FSEntry.file "aXtxt" (.ok "x")])).structureText = "root\n└── aXtxt\n" := by
  refine ⟨by decide, by decide, ?_⟩
  simp +decide [runTraversal, traverseDirectory, initialOutput, walkValid, joinRel, fileHeader,
    FSEntry.name, List.filter_cons, List.filter_nil]

/-- C6 (counterexample): with the header flag enabled, the text appended
to an empty contents buffer for the file `a.txt` with text `hi` is
`"\n/* --- File: a.txt --- */\n\nhi\n"` — which is not the claimed
"exactly the header comment followed by a blank line, the content and a
trailing newline": a newline is emitted before the header comment. -/
theorem c6_header_exact_counterexample :
    (walkValid [] [] true "" "" [FSEntry.file "a.txt" (Except.ok "hi")]
      { structureText := "", contents := "", warnings := [], logs := [] }).contents =
      "\n/* --- File: a.txt --- */\n\nhi\n" ∧
    "\n/* --- File: a.txt --- */\n\nhi\n" ≠ "/* --- File: a.txt --- */\n\nhi\n" := by
  constructor
  · simp +decide [walkValid, joinRel, fileHeader, FSEntry.name, List.filter_cons, List.filter_nil]
  · decide

/-- C6 (amended): with the header flag enabled, for every file read
successfully the walker appends to the contents buffer exactly a newline,
then the header comment `/* --- File: <relativePath> --- */`, then a
blank line, then the file's full text content, then a trailing newline
(`fileHeader` is the newline-header-blank-line block). -/
theorem c6_header_with_leading_newline (ig : List IgnoreRule) (only : List String)
    (relDir pfx name content : String) (rest : List FSEntry) (out : Output) :
    walkValid ig only true relDir pfx (FSEntry.file name (Except.ok content) :: rest) out =
      walkValid ig only true relDir pfx rest
        { out with
            structureText := out.structureText ++ pfx ++ (cond rest.isEmpty "└── " "├── ") ++ name ++ "\n"
            contents := out.contents ++ fileHeader (joinRel relDir name) ++ content ++ "\n" } := by
  rw [walkValid_cons]
  congr 1

/-- C2: a binary file — a regular file whose read fails with a message
the code classifies as a text-decoding failure (containing `invalid` or
`buffer`) — gets its structure line, contributes nothing to the contents
buffer, and is recorded with an informational log entry only, the warning
list being left untouched. -/
theorem c2_binary_file_structure_line_no_contents (ig : List IgnoreRule) (only : List String)
    (hdr : Bool) (relDir pfx name msg : String) (rest : List FSEntry) (out : Output)
    (hbin : (strIncludes msg "invalid" || strIncludes msg "buffer") = true) :
    walkValid ig only hdr relDir pfx (FSEntry.file name (Except.error msg) :: rest) out =
      walkValid ig only hdr relDir pfx rest
        { out with
            structureText := out.structureText ++ pfx ++ (cond rest.isEmpty "└── " "├── ") ++ name ++ "\n"
            logs := out.logs ++ [binaryLogMsg (joinRel relDir name)] } := by
  rw [walkValid_cons]
  congr 1
  simp [walkOne, FSEntry.name, hbin]

/-- C2 witness: concrete binary file `img.png` whose read fails with an
`invalid`-classified message. -/
theorem c2_binary_file_witness :
    (strIncludes "invalid utf-8 data" "invalid" || strIncludes "invalid utf-8 data" "buffer") = true ∧
    walkValid [] [] true "" "" [FSEntry.file "img.png" (Except.error "invalid utf-8 data")]
      { structureText := "root\n", contents := "", warnings := [], logs := [] } =
    { structureText := "root\n└── img.png\n", contents := "", warnings := []
      logs := ["Skipping likely binary file: img.png"] } := by
  refine ⟨by decide, ?_⟩
  rw [c2_binary_file_structure_line_no_contents [] [] true "" "" "img.png" "invalid utf-8 data" []
    { structureText := "root\n", contents := "", warnings := [], logs := [] } (by decide)]
  rw [walkValid_nil]
  decide

/-- C7: a directory whose listing fails only records a non-fatal warning:
at the top of a visit the walker returns with the accumulated output kept
intact and the warning appended (first conjunct), and a failing directory
encountered as an entry mid-walk gets its structure line and its warning
and the walk continues over the remaining siblings with everything
accumulated so far preserved — its children are never descended into
(second conjunct). -/
theorem c7_unreadable_directory_warning_continues :
    (∀ (relDir : String) (ig : List IgnoreRule) (pfx : String) (out : Output)
        (only : List String) (hdr : Bool) (msg : String),
      traverseDirectory relDir ig pfx out only hdr (Except.error msg) =
        { out with warnings := out.warnings ++ [warnDirMsg relDir msg] }) ∧
    (∀ (ig : List IgnoreRule) (only : List String) (hdr : Bool) (relDir pfx name msg : String)
        (rest : List FSEntry) (out : Output),
      walkValid ig only hdr relDir pfx (FSEntry.dir name (Except.error msg) :: rest) out =
        walkValid ig only hdr relDir pfx rest
          { out with
              structureText := out.structureText ++ pfx ++ (cond rest.isEmpty "└── " "├── ") ++ name ++ "\n"
              warnings := out.warnings ++ [warnDirMsg (joinRel relDir name) msg] }) := by
  constructor
  · intro relDir ig pfx out only hdr msg
    rfl
  · intro ig only hdr relDir pfx name msg rest out
    rw [walkValid_cons]
    congr 1

/-- C8: the traversal buffers grow monotonically — both at the level of
the entry loop (`walkValid`) and of a whole directory visit
(`traverseDirectory`, for any listing outcome), the resulting structure
and contents buffers are the incoming buffers with some text appended;
nothing is ever removed or rolled back. -/
theorem c8_buffers_append_only :
    (∀ (ig : List IgnoreRule) (only : List String) (hdr : Bool) (relDir pfx : String)
        (l : List FSEntry) (out : Output),
      ∃ t u, (walkValid ig only hdr relDir pfx l out).structureText = out.structureText ++ t ∧
             (walkValid ig only hdr relDir pfx l out).contents = out.contents ++ u) ∧
    (∀ (relDir : String) (ig : List IgnoreRule) (pfx : String) (out : Output)
        (only : List String) (hdr : Bool) (listing : Except String (List FSEntry)),
      ∃ t u, (traverseDirectory relDir ig pfx out only hdr listing).structureText = out.structureText ++ t ∧
             (traverseDirectory relDir ig pfx out only hdr listing).contents = out.contents ++ u) := by
  constructor
  · intro ig only hdr relDir pfx l out
    obtain ⟨t, u, w, g, h⟩ := walkValid_appends ig only hdr relDir pfx l out
    exact ⟨t, u, by rw [h], by rw [h]⟩
  · intro relDir ig pfx out only hdr listing
    cases listing with
    | error msg => exact ⟨"", "", by simp [traverseDirectory], by simp [traverseDirectory]⟩
    | ok entries =>
      obtain ⟨t, u, w, g, h⟩ := walkValid_appends ig only hdr relDir pfx
        (entries.filter (validEntry ig only relDir)) out
      exact ⟨t, u, by simp only [traverseDirectory]; rw [h], by simp only [traverseDirectory]; rw [h]⟩

/-- C4: a directory visit processes exactly the entries surviving both
filters, in their original listing order (second conjunct: the loop runs
over `entries.filter validEntry`, and `List.filter` preserves order), and
the connector of each rendered line is determined by the position among
the *filtered* survivors: the head of the remaining filtered list is
rendered with `└── ` exactly when no further survivors follow, `├── `
otherwise (first conjunct) — so an ignored trailing raw entry shifts the
terminal connector onto the last survivor. -/
theorem c4_connector_among_filtered :
    (∀ (ig : List IgnoreRule) (only : List String) (hdr : Bool) (relDir pfx : String)
        (e : FSEntry) (rest : List FSEntry) (out : Output),
      ∃ t, (walkValid ig only hdr relDir pfx (e :: rest) out).structureText =
        out.structureText ++ (pfx ++ (cond rest.isEmpty "└── " "├── ") ++ e.name ++ "\n") ++ t) ∧
    (∀ (relDir : String) (ig : List IgnoreRule) (pfx : String) (out : Output)
        (only : List String) (hdr : Bool) (entries : List FSEntry),
      traverseDirectory relDir ig pfx out only hdr (Except.ok entries) =
        walkValid ig only hdr relDir pfx (entries.filter (validEntry ig only relDir)) out) := by
  constructor
  · intro ig only hdr relDir pfx e rest out
    rw [walkValid_cons]
    obtain ⟨t0, h0⟩ := walkOne_structure_line ig only hdr relDir pfx rest.isEmpty e out
    obtain ⟨t1, u1, w1, g1, h1⟩ := walkValid_appends ig only hdr relDir pfx rest
      (walkOne ig only hdr relDir pfx rest.isEmpty e out)
    refine ⟨t0 ++ t1, ?_⟩
    rw [h1]
    simp only []
    rw [h0]
    simp [String.append_assoc]
  · intro relDir ig pfx out only hdr entries
    rfl

/-- C9: with a non-empty whitelist, a directory entry is subjected to the
same whitelist regex test as files, on its relative path with a trailing
`/` appended; a directory failing every whitelist pattern is excluded by
the entry filter and therefore never recursed into, so the walk over a
listing containing it equals the walk over the same listing with the
directory (and its whole subtree, descendants included) removed. -/
theorem c9_whitelist_directory_pruning
    (ig : List IgnoreRule) (only : List String) (hdr : Bool) (relDir pfx : String)
    (out : Output) (name : String) (listing : Except String (List FSEntry))
    (pre post : List FSEntry)
    (hne : only ≠ [])
    (hfail : only.any (fun pattern =>
      gtMatch (globTokens pattern.data) ((joinRel relDir name ++ "/").data)) = false) :
    validEntry ig only relDir (FSEntry.dir name listing) = false ∧
    traverseDirectory relDir ig pfx out only hdr
        (Except.ok (pre ++ FSEntry.dir name listing :: post)) =
      traverseDirectory relDir ig pfx out only hdr (Except.ok (pre ++ post)) := by
  have hv : validEntry ig only relDir (FSEntry.dir name listing) = false := by
    unfold validEntry
    simp only [FSEntry.isDirectory, FSEntry.name]
    rw [if_pos (List.length_pos.mpr hne)]
    have hfail2 : (only.any fun pattern =>
        gtMatch (globTokens pattern.data) ((joinRel relDir name).data ++ ['/'])) = false := by
      simpa using hfail
    simp [hfail2]
  refine ⟨hv, ?_⟩
  simp only [traverseDirectory, List.filter_append, List.filter_cons, hv]
  simp

/-- C9 witness: whitelist `["src/a.txt"]` over a root holding the single
directory `src` (containing `a.txt`, whose relative path would match):
the directory check path `src/` fails the whitelist, so the walks with
and without the `src` entry coincide. -/
theorem c9_whitelist_directory_pruning_witness :
    (["src/a.txt"] : List String) ≠ [] ∧
    (["src/a.txt"].any (fun pattern =>
      gtMatch (globTokens pattern.data) ((joinRel "" "src" ++ "/").data)) = false) ∧
    (validEntry [] ["src/a.txt"] ""
        (FSEntry.dir "src" (Except.ok [FSEntry.file "a.txt" (Except.ok "A")])) = false ∧
     traverseDirectory "" [] "" { structureText := "root\n", contents := "", warnings := [], logs := [] }
        ["src/a.txt"] true
        (Except.ok ([] ++ FSEntry.dir "src" (Except.ok [FSEntry.file "a.txt" (Except.ok "A")]) :: [])) =
      traverseDirectory "" [] "" { structureText := "root\n", contents := "", warnings := [], logs := [] }
        ["src/a.txt"] true (Except.ok ([] ++ []))) :=
  ⟨by decide, by decide,
    c9_whitelist_directory_pruning [] ["src/a.txt"] true "" ""
      { structureText := "root\n", contents := "", warnings := [], logs := [] }
      "src" (Except.ok [FSEntry.file "a.txt" (Except.ok "A")]) [] []
      (by decide) (by decide)⟩

/-! Lemmas about the modelled gitignore matcher, supporting the analysis
of the always-ignore invariant. -/

theorem splitOnChar_ne_nil (sep : Char) (l : List Char) :
    ∃ s rest, splitOnChar sep l = s :: rest := by
  induction l with
  | nil => exact ⟨[], [], rfl⟩
  | cons c cs ih =>
    obtain ⟨s, rest, h⟩ := ih
    by_cases hc : (c == sep) = true
    · exact ⟨[], splitOnChar sep cs, by simp [splitOnChar, hc]⟩
    · exact ⟨c :: s, rest, by simp [splitOnChar, hc, h]⟩

theorem splitOnChar_append_cons (sep : Char) (xs ys : List Char) :
    splitOnChar sep (xs ++ sep :: ys) = splitOnChar sep xs ++ splitOnChar sep ys := by
  induction xs with
  | nil => simp [splitOnChar]
  | cons c cs ih =>
    by_cases h : (c == sep) = true
    · simp [splitOnChar, h, ih]
    · obtain ⟨s, rest, hsr⟩ := splitOnChar_ne_nil sep cs
      simp [splitOnChar, h, ih, hsr]

theorem splitOnChar_eq_single (sep : Char) (l : List Char) (h : l.contains sep = false) :
    splitOnChar sep l = [l] := by
  induction l with
  | nil => rfl
  | cons c cs ih =>
    simp only [List.contains_cons, Bool.or_eq_false_iff] at h
    obtain ⟨h1, h2⟩ := h
    have hc : (c == sep) = false := by
      cases hcc : c == sep
      · rfl
      · rw [beq_iff_eq] at hcc
        subst hcc
        simp at h1
    simp [splitOnChar, hc, ih h2]

theorem endsWithSlash_cons_of_ne (c : Char) (l : List Char) (h : l ≠ []) :
    endsWithSlash (c :: l) = endsWithSlash l := by
  cases l with
  | nil => exact absurd rfl h
  | cons d ds => rfl

theorem endsWithSlash_append (xs ys : List Char) (h : ys ≠ []) :
    endsWithSlash (xs ++ ys) = endsWithSlash ys := by
  induction xs with
  | nil => rfl
  | cons c cs ih =>
    have hne : cs ++ ys ≠ [] := by
      intro hh
      exact h (List.append_eq_nil.mp hh).2
    rw [List.cons_append, endsWithSlash_cons_of_ne c _ hne, ih]

theorem endsWithSlash_concat (l : List Char) : endsWithSlash (l ++ ['/']) = true := by
  rw [endsWithSlash_append l ['/'] (by simp)]
  decide

theorem endsWithSlash_eq_false (l : List Char) (h : l.contains '/' = false) :
    endsWithSlash l = false := by
  induction l with
  | nil => rfl
  | cons c cs ih =>
    simp only [List.contains_cons, Bool.or_eq_false_iff] at h
    obtain ⟨h1, h2⟩ := h
    cases cs with
    | nil =>
      show (c == '/') = false
      cases hcc : c == '/'
      · rfl
      · rw [beq_iff_eq] at hcc
        subst hcc
        simp at h1
    | cons d ds =>
      show endsWithSlash (d :: ds) = false
      exact ih h2

/-- When no rule is negated, the ruleset ignores a path exactly when some
rule matches it (the `!`-free fragment of the last-match-wins fold). -/
theorem ignores_of_all_nonneg (path : String) (rules : List IgnoreRule)
    (hpos : ∀ r ∈ rules, r.negated = false) :
    ignores rules path = rules.any (fun r => ruleMatch r.pattern path) := by
  have key : ∀ (rs : List IgnoreRule), (∀ r ∈ rs, r.negated = false) → ∀ acc : Bool,
      rs.foldl (fun acc r => if ruleMatch r.pattern path then !r.negated else acc) acc =
        (acc || rs.any (fun r => ruleMatch r.pattern path)) := by
    intro rs
    induction rs with
    | nil =>
      intro _ acc
      simp
    | cons r rs ih =>
      intro hp acc
      have hr : r.negated = false := hp r (List.mem_cons_self r rs)
      have hrs : ∀ x ∈ rs, x.negated = false := fun x hx => hp x (List.mem_cons_of_mem r hx)
      simp only [List.foldl_cons, List.any_cons]
      rw [ih hrs]
      by_cases hm : ruleMatch r.pattern path = true
      · simp [hm, hr]
      · simp [hm]
  unfold ignores
  rw [key rules hpos false]
  simp

/-- A doubly-starred unanchored pattern list finds its literal final
segment at the end of any segment list. -/
theorem igMatch_doublestar_last (isDir : Bool) (pseg : List Char) (pre : List (List Char))
    (hp : pseg ≠ ['*', '*'])
    (hg : globSeg pseg pseg = true) :
    igMatch false isDir [['*', '*'], pseg] (pre ++ [pseg]) = true := by
  have hstep : igMatch false isDir [['*', '*'], pseg] (pre ++ [pseg]) =
      if (['*', '*'] : List Char) = ['*', '*'] then
        ((pre ++ [pseg]).tails).any (fun suf => igMatch false isDir [pseg] suf)
      else
        match pre ++ [pseg] with
        | [] => false
        | s :: segs' => globSeg ['*', '*'] s && igMatch false isDir [pseg] segs' := rfl
  rw [hstep, if_pos rfl, List.any_eq_true]
  refine ⟨[pseg], ?_, ?_⟩
  · rw [List.mem_tails]
    exact List.suffix_append pre [pseg]
  · have hstep2 : igMatch false isDir [pseg] [pseg] =
        if pseg = ['*', '*'] then
          (([pseg] : List (List Char)).tails).any (fun suf => igMatch false isDir [] suf)
        else globSeg pseg pseg && igMatch false isDir [] [] := rfl
    rw [hstep2, if_neg hp]
    show (globSeg pseg pseg && true) = true
    simp [hg]

/-- A single-segment literal-matching pattern (such as the built-in
always-ignore names) matches the check path of a directory entry of that
name in any directory: the pattern, having no `/`, is unanchored and its
final segment is the path's basename. -/
theorem ruleMatch_basename_dir (pat relDir : String)
    (hnoslash : pat.data.contains '/' = false)
    (hne : pat.data ≠ [])
    (hnotss : pat.data ≠ ['*', '*'])
    (hself : globSeg pat.data pat.data = true) :
    ruleMatch pat (joinRel relDir pat ++ "/") = true := by
  have hEnds : endsWithSlash pat.data = false := endsWithSlash_eq_false _ hnoslash
  have hsplitPat : splitSlash pat.data = [pat.data] := splitOnChar_eq_single '/' _ hnoslash
  have hhead : ¬ (pat.data.head? = some '/') := by
    intro h
    obtain ⟨c, cs, hcc⟩ := List.exists_cons_of_ne_nil hne
    rw [hcc] at h hnoslash
    simp only [List.head?_cons, Option.some.injEq] at h
    subst h
    simp [List.contains_cons] at hnoslash
  have hpat1 : (if pat.data.head? = some '/' then pat.data.tail else pat.data) = pat.data :=
    if_neg hhead
  have hsegs : ∃ pre, splitSlash (joinRel relDir pat).data = pre ++ [pat.data] := by
    by_cases hrd : relDir = ""
    · exact ⟨[], by simp [joinRel, hrd, hsplitPat]⟩
    · refine ⟨splitOnChar '/' relDir.data, ?_⟩
      have hj : (joinRel relDir pat).data = relDir.data ++ '/' :: pat.data := by
        simp [joinRel, hrd, String.data_append]
      rw [hj]
      show splitOnChar '/' (relDir.data ++ '/' :: pat.data) = _
      have hsplitPat2 : splitOnChar '/' pat.data = [pat.data] := hsplitPat
      rw [splitOnChar_append_cons, hsplitPat2]
  obtain ⟨pre, hpre⟩ := hsegs
  have hpath : (joinRel relDir pat ++ "/").data = (joinRel relDir pat).data ++ ['/'] := by
    rw [String.data_append]
  unfold ruleMatch
  simp only [hpath, endsWithSlash_concat, hEnds, eq_self_iff_true, if_true,
    Bool.false_eq_true, if_false, List.dropLast_concat, hnoslash, hpat1, hsplitPat, hpre]
  exact igMatch_doublestar_last true pat.data pre hnotss hself

/-- The file-entry analogue of `ruleMatch_basename_dir`: the check path of
a file carries no trailing slash. -/
theorem ruleMatch_basename_file (pat relDir : String)
    (hnoslash : pat.data.contains '/' = false)
    (hne : pat.data ≠ [])
    (hnotss : pat.data ≠ ['*', '*'])
    (hself : globSeg pat.data pat.data = true) :
    ruleMatch pat (joinRel relDir pat) = true := by
  have hEnds : endsWithSlash pat.data = false := endsWithSlash_eq_false _ hnoslash
  have hsplitPat : splitSlash pat.data = [pat.data] := splitOnChar_eq_single '/' _ hnoslash
  have hhead : ¬ (pat.data.head? = some '/') := by
    intro h
    obtain ⟨c, cs, hcc⟩ := List.exists_cons_of_ne_nil hne
    rw [hcc] at h hnoslash
    simp only [List.head?_cons, Option.some.injEq] at h
    subst h
    simp [List.contains_cons] at hnoslash
  have hpat1 : (if pat.data.head? = some '/' then pat.data.tail else pat.data) = pat.data :=
    if_neg hhead
  have hsegs : ∃ pre, splitSlash (joinRel relDir pat).data = pre ++ [pat.data] := by
    by_cases hrd : relDir = ""
    · exact ⟨[], by simp [joinRel, hrd, hsplitPat]⟩
    · refine ⟨splitOnChar '/' relDir.data, ?_⟩
      have hj : (joinRel relDir pat).data = relDir.data ++ '/' :: pat.data := by
        simp [joinRel, hrd, String.data_append]
      rw [hj]
      show splitOnChar '/' (relDir.data ++ '/' :: pat.data) = _
      have hsplitPat2 : splitOnChar '/' pat.data = [pat.data] := hsplitPat
      rw [splitOnChar_append_cons, hsplitPat2]
  obtain ⟨pre, hpre⟩ := hsegs
  have hEndsRel : endsWithSlash (joinRel relDir pat).data = false := by
    by_cases hrd : relDir = ""
    · simpa [joinRel, hrd] using hEnds
    · have hj : (joinRel relDir pat).data = relDir.data ++ '/' :: pat.data := by
        simp [joinRel, hrd, String.data_append]
      rw [hj, endsWithSlash_append _ _ (by simp), endsWithSlash_cons_of_ne _ _ hne]
      exact hEnds
  unfold ruleMatch
  simp only [hEndsRel, hEnds, eq_self_iff_true, if_true,
    Bool.false_eq_true, if_false, hnoslash, hpat1, hsplitPat, hpre]
  exact igMatch_doublestar_last false pat.data pre hnotss hself

/-- Side conditions of the basename lemmas hold for each built-in
always-ignored name. -/
theorem always_ignore_conds (name : String) (h : name ∈ ALWAYS_IGNORE) :
    name.data.contains '/' = false ∧ name.data ≠ [] ∧ name.data ≠ ['*', '*'] ∧
      globSeg name.data name.data = true := by
  fin_cases h <;> refine ⟨by decide, by decide, by decide, by decide⟩

/-- The built-in rules are an initial segment of every ruleset the tool
builds. -/
theorem loadGitignore_base (useGitignore : Bool) (content : Option String)
    (extra : List String) :
    ∃ tail, addPatterns (loadGitignore useGitignore content) extra =
      ALWAYS_IGNORE.map (fun p => { negated := false, pattern := p }) ++ tail := by
  cases useGitignore with
  | false => exact ⟨extra.map (fun p => parseIgnorePattern p.data), by simp [addPatterns, loadGitignore]⟩
  | true =>
    cases content with
    | none => exact ⟨extra.map (fun p => parseIgnorePattern p.data), by simp [addPatterns, loadGitignore]⟩
    | some c =>
      exact ⟨parseIgnoreLines c ++ extra.map (fun p => parseIgnorePattern p.data),
        by simp [addPatterns, loadGitignore]⟩

/-- C3 (counterexample): the always-ignore invariant does not hold for
arbitrary VCS-ignore file content — a `.gitignore` consisting of the
negation rule `!.git` re-includes the version-control metadata directory,
which then appears in the structure output. -/
theorem c3_negation_counterexample :
    (runTraversal "root" true (some "!.git") [] [] true
      (.ok [FSEntry.dir ".git" (.ok [])])).structureText = "root\n└── .git\n" ∧
    strIncludes "root\n└── .git\n" ".git" = true := by
  constructor
  · simp +decide [runTraversal, traverseDirectory, initialOutput, walkValid, joinRel, fileHeader,
      FSEntry.name, List.filter_cons, List.filter_nil]
  · decide

/-- C3 (amended): for every configuration whose gitignore content and
extra ignore patterns contain no negation (`!`) rule, and an empty
whitelist, every entry bearing one of the built-in always-ignored names
(`.git`, `node_modules`, `structure.txt`, `contents.txt`) fails the entry
filter in every directory — so no such entry is ever rendered into the
structure output or read into the contents output. -/
theorem c3_always_ignored_excluded (useGitignore : Bool) (content : Option String)
    (extra : List String) (relDir : String) (e : FSEntry)
    (hmem : e.name ∈ ALWAYS_IGNORE)
    (hpos : ∀ r ∈ addPatterns (loadGitignore useGitignore content) extra, r.negated = false) :
    validEntry (addPatterns (loadGitignore useGitignore content) extra) [] relDir e = false := by
  obtain ⟨hnoslash, hne, hnotss, hself⟩ := always_ignore_conds e.name hmem
  have hrulemem : ({ negated := false, pattern := e.name } : IgnoreRule) ∈
      addPatterns (loadGitignore useGitignore content) extra := by
    obtain ⟨tail, htail⟩ := loadGitignore_base useGitignore content extra
    rw [htail]
    exact List.mem_append_left _ (List.mem_map.mpr ⟨e.name, hmem, rfl⟩)
  have hig : ∀ checkPath, ruleMatch e.name checkPath = true →
      ignores (addPatterns (loadGitignore useGitignore content) extra) checkPath = true := by
    intro checkPath hm
    rw [ignores_of_all_nonneg _ _ hpos, List.any_eq_true]
    exact ⟨_, hrulemem, hm⟩
  cases e with
  | dir name listing =>
    unfold validEntry
    simp only [FSEntry.isDirectory, FSEntry.name, List.length_nil, gt_iff_lt,
      lt_self_iff_false, if_false, eq_self_iff_true, if_true, Bool.true_and]
    have := hig (joinRel relDir name ++ "/")
      (ruleMatch_basename_dir name relDir hnoslash hne hnotss hself)
    simp [this]
  | file name readResult =>
    unfold validEntry
    simp only [FSEntry.isDirectory, FSEntry.name, List.length_nil, gt_iff_lt,
      lt_self_iff_false, if_false, Bool.false_eq_true, eq_self_iff_true, if_true, Bool.true_and]
    have := hig (joinRel relDir name)
      (ruleMatch_basename_file name relDir hnoslash hne hnotss hself)
    simp [this]
  | other name =>
    unfold validEntry
    simp only [FSEntry.isDirectory, FSEntry.name, List.length_nil, gt_iff_lt,
      lt_self_iff_false, if_false, Bool.false_eq_true, eq_self_iff_true, if_true, Bool.true_and]
    have := hig (joinRel relDir name)
      (ruleMatch_basename_file name relDir hnoslash hne hnotss hself)
    simp [this]

/-- C3 witness: a concrete negation-free configuration (gitignore content
`*.log` and `dist/`, extra pattern `tmp/`) in a nested directory `a/b`
still filters out a `.git` entry. -/
theorem c3_always_ignored_witness :
    (FSEntry.dir ".git" (Except.ok [])).name ∈ ALWAYS_IGNORE ∧
    (∀ r ∈ addPatterns (loadGitignore true (some "*.log\ndist/")) ["tmp/"], r.negated = false) ∧
    validEntry (addPatterns (loadGitignore true (some "*.log\ndist/")) ["tmp/"]) [] "a/b"
      (FSEntry.dir ".git" (Except.ok [])) = false :=
  ⟨by decide, by decide,
    c3_always_ignored_excluded true (some "*.log\ndist/") ["tmp/"] "a/b"
      (FSEntry.dir ".git" (Except.ok [])) (by decide) (by decide)⟩
